import Mathlib

/-!
Verification of the chainstore engine (`src/index.js`) against its
natural-language specification.

The development is a shallow embedding of the JavaScript source:

* Buffers are modelled as `List Nat` (one `Nat` per byte).
* The external crypto collaborator (`@web4/crypto` / `derive-key`) is a
  bundle of pure functions (`Crypto`), as in the spec's "Crypto contract".
* The reference-counted cache (`refpool`, a dependency whose code is not in
  this repository) is modelled from the spec's §4.5 "Chain Cache" contract;
  JS `Map` keys are modelled by `JsKey`, where an `[id, chain]` pair used as
  a key (JS array, compared by reference) never equals a string key, which
  is exactly how `Map` lookups for such keys behave on a map populated only
  with string keys.
* Callback-style fallible code is modelled with `Except JsError` and
  explicit state passing; operations return the (possibly mutated) state
  alongside their result.
-/

/-- A JS `Buffer`: a list of byte values. -/
abbrev Bytes := List Nat

/-- Byte values of a JS string (`Buffer.from(s)`, ASCII range). -/
def strBytes (s : String) : Bytes := s.toList.map Char.toNat

/-- Lower-case hex digit for a value `0..15`. -/
def hexDigit (n : Nat) : Char :=
  if n < 10 then Char.ofNat (48 + n) else Char.ofNat (87 + n)

/-- Two-digit lower-case hex rendering of one byte. -/
def hexByte (n : Nat) : String :=
  String.mk [hexDigit ((n / 16) % 16), hexDigit (n % 16)]

/-- Hex encoding of a buffer (`bitEncoding.encode` / `buf.toString('hex')`). -/
def encodeBytes (b : Bytes) : String := String.join (b.map hexByte)

/-- Numeric value of one hex digit character (0 for junk, as a total model). -/
def hexVal (ch : Char) : Nat :=
  if 48 ≤ ch.toNat ∧ ch.toNat ≤ 57 then ch.toNat - 48
  else if 97 ≤ ch.toNat ∧ ch.toNat ≤ 102 then ch.toNat - 87
  else if 65 ≤ ch.toNat ∧ ch.toNat ≤ 70 then ch.toNat - 55
  else 0

/-- Hex decoding of a character list, two digits per byte. -/
def decodeHexChars : List Char → Bytes
  | c1 :: c2 :: rest => (16 * hexVal c1 + hexVal c2) :: decodeHexChars rest
  | _ => []

/-- Hex decoding of a string (`Buffer.from(s, 'hex')` / `bitEncoding.decode`). -/
def decodeHex (s : String) : Bytes := decodeHexChars s.data

/-- Error values thrown or passed to callbacks by the source. -/
inductive JsError where
  /-- Thrown as `'Chainstore.ready must be called before get.'` -/
  | notOpen
  /-- Thrown as `'Storage should be a function or string'` -/
  | badStorage
  /-- Thrown as `'If the default option is set, a name must be specified.'` -/
  | missingName
  /-- Passed as `'Stored an incorrect name.'` -/
  | wrongNameStored
  /-- Passed as `'Unknown key pair.'` (flagged `err.unknownKeyPair = true`) -/
  | unknownKeyPair
  /-- JS `TypeError`, e.g. reading a property of `undefined`. -/
  | typeError
  /-- Storage `ENOENT` ("NotFound"). -/
  | notFound
  /-- Any other I/O error, tagged for distinctness. -/
  | io (n : Nat)
deriving DecidableEq, Repr

/-- The external crypto collaborator (spec §6 "Crypto contract"): pure
deterministic functions; `randomBytes` models the random source as an
arbitrary oracle keyed by the requested length. -/
structure Crypto where
  randomBytes : Nat → Bytes
  keyPair : Bytes → Bytes × Bytes
  discoveryKey : Bytes → Bytes
  deriveSeed : Bytes → Bytes → Bytes → Bytes

/-- The fixed derivation namespace tag, `const NAMESPACE = 'chainstore'`. -/
def NAMESPACE : Bytes := strBytes "chainstore"

/-- The namespace separator, `const NAMESPACE_SEPERATOR = ':'`. -/
def NAMESPACE_SEPERATOR : String := ":"

/-- A key argument as accepted by `decodeKey`/`encodeKey`: a `Buffer` or a
hex string. -/
inductive KeyArg where
  | buf (b : Bytes)
  | str (s : String)
deriving DecidableEq, Repr

/-- Source `decodeKey`: strings are hex-decoded, buffers pass. -/
def decodeKey : KeyArg → Bytes
  | .str s => decodeHex s
  | .buf b => b

/-- Source `encodeKey`: buffers are hex-encoded, strings pass. -/
def encodeKey : KeyArg → String
  | .buf b => encodeBytes b
  | .str s => s

/-- The `keyPair` option: `{ publicKey, secretKey }`. -/
structure KeyPairOpt where
  publicKey : Bytes
  secretKey : Option Bytes
deriving DecidableEq, Repr

/-- The `name` option: a JS string or a `Buffer`. -/
inductive NameArg where
  | str (s : String)
  | buf (b : Bytes)
deriving DecidableEq, Repr

/-- JS truthiness of the `name` option: absent and the empty string are
falsy; every `Buffer` (an object) is truthy. -/
def nameTruthy : Option NameArg → Bool
  | none => false
  | some (.str s) => !(decide (s = ""))
  | some (.buf _) => true

/-- The option object accepted by `get`/`isLoaded`/`isExternal`.  The
`cache` sub-option only rescopes block caches and carries no key material,
so it is not modelled. -/
structure ChainOpts where
  key : Option KeyArg := none
  discoveryKey : Option KeyArg := none
  keyPair : Option KeyPairOpt := none
  name : Option NameArg := none
  default : Bool := false
deriving DecidableEq, Repr

/-- The polymorphic argument of `get`: a buffer, a hex string, or an option
object (a missing/`null` argument normalizes to the empty option object). -/
inductive GetArg where
  | buf (b : Bytes)
  | str (s : String)
  | opts (o : ChainOpts)
deriving DecidableEq, Repr

/-- Normalization at the head of `_generateKeys`: a string becomes a
hex-decoded buffer, and a buffer becomes `{ key: buffer }`. -/
def normalizeOpts : GetArg → ChainOpts
  | .buf b => { key := some (.buf b) }
  | .str s => { key := some (.buf (decodeHex s)) }
  | .opts o => o

/-- Output of the key resolver: `{ publicKey?, secretKey?, discoveryKey,
name? }` with the discovery key already decoded to bytes. -/
structure GeneratedKeys where
  publicKey : Option Bytes := none
  secretKey : Option Bytes := none
  discoveryKey : Bytes
  name : Option Bytes := none
deriving DecidableEq, Repr

/-- Source `InnerChainstore._generateKeyPair`: coerce the name (string → bytes,
absent → 32 random bytes), derive a seed from the master key under the
`'chainstore'` tag, and build the keypair and discovery key. -/
def generateKeyPair (c : Crypto) (master : Bytes) (name : Option NameArg) : GeneratedKeys :=
  let nameB : Bytes :=
    match name with
    | some (.str s) => strBytes s
    | some (.buf b) => b
    | none => c.randomBytes 32
  let seed := c.deriveSeed NAMESPACE master nameB
  let kp := c.keyPair seed
  { name := some nameB, publicKey := some kp.1, secretKey := some kp.2,
    discoveryKey := c.discoveryKey kp.1 }

/-- Source `InnerChainstore._generateKeys`: the key resolver.  Branch order as in
the source: `keyPair`, then `key`, then `default || name` (throwing
`MissingName` when the name is falsy), then `discoveryKey`, then a fresh
random-named keypair. -/
def generateKeys (c : Crypto) (master : Bytes) (arg : GetArg) : Except JsError GeneratedKeys :=
  let chainOpts := normalizeOpts arg
  match chainOpts.keyPair with
  | some kp =>
      .ok { publicKey := some kp.publicKey, secretKey := kp.secretKey,
            discoveryKey := c.discoveryKey kp.publicKey, name := none }
  | none =>
    match chainOpts.key with
    | some k =>
        let publicKey := decodeKey k
        .ok { publicKey := some publicKey, secretKey := none,
              discoveryKey := c.discoveryKey publicKey, name := none }
    | none =>
      if chainOpts.default || nameTruthy chainOpts.name then
        if !nameTruthy chainOpts.name then .error .missingName
        else .ok (generateKeyPair c master chainOpts.name)
      else
        match chainOpts.discoveryKey with
        | some dk =>
            .ok { publicKey := none, secretKey := none,
                  discoveryKey := decodeKey dk, name := none }
        | none => .ok (generateKeyPair c master none)

/-- A chain handle as produced by the factory.  Per the spec's Chain
contract the handle exposes its key material; `token` models JS object
identity (each `unichain(...)` call yields a fresh object). -/
structure Chain where
  publicKey : Option Bytes
  secretKey : Option Bytes
  discoveryKey : Bytes
  createIfMissing : Bool
  token : Nat
deriving DecidableEq, Repr

/-- A JS value used as a `Map` key in this program: `null`, a string, or an
`[id, chain]` entry pair (a fresh array object, which JS compares by
reference and which therefore matches no string key). -/
inductive JsKey where
  | nul
  | str (s : String)
  | pair (k : String) (v : Chain)
deriving DecidableEq, Repr

/-- A cache entry: `{ value: chain, refs }`. -/
structure CacheEntry where
  value : Chain
  refs : Nat
deriving DecidableEq, Repr

/-- Lookup in an association list (JS `Map.get`), first match. -/
def alookup {α β : Type} [DecidableEq α] : List (α × β) → α → Option β
  | [], _ => none
  | p :: rest, k => if p.1 = k then some p.2 else alookup rest k

/-- Removal from an association list (JS `Map.delete`). -/
def aremove {α β : Type} [DecidableEq α] : List (α × β) → α → List (α × β)
  | [], _ => []
  | p :: rest, k => if p.1 = k then aremove rest k else p :: aremove rest k

/-- In-place update of the entry at a key, if present. -/
def aupdate {α β : Type} [DecidableEq α] (f : β → β) : List (α × β) → α → List (α × β)
  | [], _ => []
  | p :: rest, k => if p.1 = k then (p.1, f p.2) :: rest else p :: aupdate f rest k

/-- The reference-counted LRU cache.  Modelled from the spec: the `refpool`
dependency is not part of this repository's sources, so the §4.5 "Chain
Cache" contract is embedded directly.  `entries` is kept in least-recently-
used-first order. -/
structure Cache where
  maxSize : Nat
  entries : List (JsKey × CacheEntry)
deriving Repr

/-- Spec §4.5 `entry(id)`: the `{chain, refs}` record, or absent. -/
def Cache.entry (c : Cache) (k : JsKey) : Option CacheEntry :=
  alookup c.entries k

/-- Spec §4.5 `has(id)`: membership only, no LRU effect. -/
def Cache.has (c : Cache) (k : JsKey) : Bool :=
  (alookup c.entries k).isSome

/-- Spec §4.5 `get(id)`: return the chain if present and touch the LRU
position (move to most-recently-used). -/
def Cache.get (c : Cache) (k : JsKey) : Option Chain × Cache :=
  match alookup c.entries k with
  | none => (none, c)
  | some e => (some e.value, { c with entries := aremove c.entries k ++ [(k, e)] })

/-- First zero-ref entry in LRU order (the eviction candidate). -/
def findEvictable : List (JsKey × CacheEntry) → Option (JsKey × CacheEntry)
  | [] => none
  | p :: rest => if p.2.refs = 0 then some p else findEvictable rest

/-- Spec §4.5 `set(id, chain)`: insert with `refs = 0`; if the size then
exceeds the capacity, evict (and report for closing) the least-recently-used
zero-ref entry; pinned entries are never evicted. -/
def Cache.set (c : Cache) (k : JsKey) (v : Chain) : Cache × List Chain :=
  let entries := c.entries ++ [(k, { value := v, refs := 0 })]
  if entries.length > c.maxSize then
    match findEvictable entries with
    | some p => ({ c with entries := aremove entries p.1 }, [p.2.value])
    | none => ({ c with entries := entries }, [])
  else ({ c with entries := entries }, [])

/-- Spec §4.5 `increment(id)`. -/
def Cache.increment (c : Cache) (k : JsKey) : Cache :=
  { c with entries := aupdate (fun e => { e with refs := e.refs + 1 }) c.entries k }

/-- Spec §4.5 `decrement(id)` (tolerant of an absent id, like `delete`). -/
def Cache.decrement (c : Cache) (k : JsKey) : Cache :=
  { c with entries := aupdate (fun e => { e with refs := e.refs - 1 }) c.entries k }

/-- Spec §4.5 `delete(id)`: remove unconditionally. -/
def Cache.delete (c : Cache) (k : JsKey) : Cache :=
  { c with entries := aremove c.entries k }

/-- Reference count at a key, 0 when absent. -/
def Cache.refsOf (c : Cache) (k : JsKey) : Nat :=
  ((alookup c.entries k).map (fun e => e.refs)).getD 0

/-- State of the shared engine (`InnerChainstore`).  `errorEvents` records
`this.emit('error', ...)` calls (oldest first); `pendingEvictionClose`
records chains handed to the cache's `close` callback whose asynchronous
close is in flight. -/
structure InnerStore where
  opened : Bool
  crypto : Crypto
  masterKey : Bytes
  cache : Cache
  nextToken : Nat
  errorEvents : List JsError := []
  pendingEvictionClose : List Chain := []

/-- The `_cache` property of an `InnerChainstore` object.  The constructor
assigns only `this.cache`; no code ever assigns `this._cache`, so reading it
yields `undefined` on every instance. -/
def InnerStore.underscoreCache (_st : InnerStore) : Option Cache := none

/-- The cache's `close` callback (constructor, lines 30-34): an error from
closing an evicted chain is emitted as an engine `error` event. -/
def InnerStore.onEvictionCloseError (st : InnerStore) (err : JsError) : InnerStore :=
  { st with errorEvents := st.errorEvents ++ [err] }

/-- Source `InnerChainstore.isLoaded`: resolve keys, then cache membership. -/
def InnerStore.isLoaded (st : InnerStore) (arg : GetArg) : Except JsError Bool :=
  match generateKeys st.crypto st.masterKey arg with
  | .error e => .error e
  | .ok keys => .ok (st.cache.has (.str (encodeBytes keys.discoveryKey)))

/-- Source `InnerChainstore.isExternal`: resolve keys, then read
`this._cache.entry(...)`.  Because `this._cache` is `undefined` (only
`this.cache` is ever assigned), the property access `.entry` throws a
`TypeError` before any entry can be consulted. -/
def InnerStore.isExternal (st : InnerStore) (arg : GetArg) : Except JsError Bool :=
  match generateKeys st.crypto st.masterKey arg with
  | .error e => .error e
  | .ok keys =>
    match st.underscoreCache with
    | none => .error .typeError
    | some c =>
      match c.entry (.str (encodeBytes keys.discoveryKey)) with
      | none => .ok false
      | some e => .ok (decide (e.refs ≠ 0))

/-- The storage path of the `key` file for a hex discovery key `d`:
`[d.slice(0,2), d.slice(2,4), d, 'key'].join('/')`. -/
def chainKeyPath (dkey : String) : String :=
  dkey.take 2 ++ "/" ++ (dkey.drop 2).take 2 ++ "/" ++ dkey ++ "/key"

/-- Result of a storage `read` callback: an error, or success carrying the
data (JS can also deliver success with no buffer, `cb(null, undefined)`). -/
inductive ReadResult where
  | err (e : JsError)
  | ok (data : Option Bytes)
deriving DecidableEq, Repr

/-- Source `InnerChainstore._checkIfExists`: a cached dkey answers `true` with no
I/O; otherwise read 32 bytes of the `key` file.  Any read error is passed
to the callback unchanged (`if (err) return cb(err)` — including
`NotFound`), then any close error likewise; a successful read answers
`true` exactly when a buffer was delivered (`if (!key) cb(null, false)`).
The storage is modelled by the outcome maps `readAt`/`closeAt`. -/
def InnerStore.checkIfExists (st : InnerStore) (dkeyArg : KeyArg)
    (readAt : String → ReadResult) (closeAt : String → Option JsError) :
    Except JsError Bool :=
  let dkey := encodeKey dkeyArg
  if st.cache.has (.str dkey) then .ok true
  else
    let path := chainKeyPath dkey
    match readAt path with
    | .err e => .error e
    | .ok key =>
      match closeAt path with
      | some e => .error e
      | none => match key with
        | none => .ok false
        | some _ => .ok true

/-- Source `InnerChainstore._close` (lines 67-83), the value finally delivered to
the close callback: with an empty cache, success on the next tick; else
every live chain is closed and `if (err) error = err` keeps overwriting a
single error slot, so the callback gets the error of the last failing close
(in completion order, modelled as cache order), or success if none failed.
The chains' close outcomes are supplied by `closeRes`. -/
def InnerStore.closeResult (st : InnerStore) (closeRes : Chain → Option JsError) : Option JsError :=
  if st.cache.entries.isEmpty then none
  else
    (st.cache.entries.map (fun p => closeRes p.2.value)).foldl
      (fun acc r => match r with | some e => some e | none => acc) none

/-- The `onerror` observer wired in `get` (lines 256-264): release the
`ifAvailable` gate, delete the id from the cache, and — for every kind of
error, `unknownKeyPair` or not — emit nothing (the `unknownKeyPair` branch
holds only a TODO comment). -/
def InnerStore.onChainError (st : InnerStore) (id : String) (_err : JsError) : InnerStore :=
  { st with cache := st.cache.delete (.str id) }

/-- The `onclose` observer wired in `get` (lines 266-268). -/
def InnerStore.onChainClose (st : InnerStore) (id : String) : InnerStore :=
  { st with cache := st.cache.delete (.str id) }

/-- The derived-key storage callback built in `get` (lines 203-216): a
stored name re-derives the keypair and must reproduce the resolver's
discovery key (`WrongNameStored` otherwise); else the resolver's secret
keypair, else a public key only, else `UnknownKeypair`. -/
def keyStorageResolve (c : Crypto) (master : Bytes) (keys : GeneratedKeys)
    (storedName : Option Bytes) : Except JsError GeneratedKeys :=
  match storedName with
  | some name =>
    let res := generateKeyPair c master (some (.buf name))
    if !(decide (keys.discoveryKey = res.discoveryKey)) then .error .wrongNameStored
    else .ok res
  | none =>
    match keys.secretKey with
    | some _ => .ok keys
    | none =>
      match keys.publicKey with
      | some pk => .ok { name := none, publicKey := some pk, secretKey := none,
                         discoveryKey := keys.discoveryKey }
      | none =>
        .error .unknownKeyPair

/-- Source `InnerChainstore.get` (lines 189-245), synchronous portion: throw when
not opened; resolve keys (propagating `MissingName`); on a cache hit return
the cached handle; on a miss construct the chain (`createIfMissing =
!!publicKey`, fresh identity token), insert it into the cache *before* any
asynchronous work, and return it.  A thrown error leaves the state
untouched. -/
def InnerStore.get (st : InnerStore) (arg : GetArg) : Except JsError Chain × InnerStore :=
  if st.opened = false then (.error .notOpen, st)
  else
    match generateKeys st.crypto st.masterKey arg with
    | .error e => (.error e, st)
    | .ok keys =>
      let id := encodeBytes keys.discoveryKey
      match st.cache.get (.str id) with
      | (some cached, cache1) => (.ok cached, { st with cache := cache1 })
      | (none, _) =>
        let chain : Chain :=
          { publicKey := keys.publicKey, secretKey := keys.secretKey,
            discoveryKey := keys.discoveryKey,
            createIfMissing := keys.publicKey.isSome,
            token := st.nextToken }
        let setRes := st.cache.set (.str id) chain
        (.ok chain,
         { st with cache := setRes.1, nextToken := st.nextToken + 1,
                   pendingEvictionClose := st.pendingEvictionClose ++ setRes.2 })

/-- State of a (possibly namespaced) outer `Chainstore` view. -/
structure View where
  name : String
  isNamespaced : Bool
  hasParent : Bool
  openedChains : List (String × Chain)

/-- The root view: `new Chainstore(storage)` with no `name`/`parent`
options (`name` falls back to `'default'`). -/
def rootView : View :=
  { name := "default", isNamespaced := false, hasParent := false, openedChains := [] }

/-- Source `Chainstore._maybeIncrement`: key the chain by the hex of its discovery
key; if this view does not own it yet, record it and increment the shared
cache's refcount, otherwise do nothing. -/
def maybeIncrement (v : View) (st : InnerStore) (chain : Chain) : View × InnerStore :=
  let id := encodeBytes chain.discoveryKey
  match alookup v.openedChains id with
  | some _ => (v, st)
  | none =>
    ({ v with openedChains := v.openedChains ++ [(id, chain)] },
     { st with cache := st.cache.increment (.str id) })

/-- Source `Chainstore.get`: delegate to the engine, then `_maybeIncrement`.  (The
buffer-to-`{key}` coercion it performs is idempotent with the engine's
own.) -/
def Chainstore.get (v : View) (st : InnerStore) (arg : GetArg) :
    Except JsError Chain × View × InnerStore :=
  match InnerStore.get st arg with
  | (.error e, st1) => (.error e, v, st1)
  | (.ok chain, st1) =>
    let vi := maybeIncrement v st1 chain
    (.ok chain, vi.1, vi.2)

/-- Source `Chainstore.default`: `get({ ...chainOpts, name: this.name })`, the
view's name being a string. -/
def Chainstore.defaultGet (v : View) (st : InnerStore) (chainOpts : ChainOpts) :
    Except JsError Chain × View × InnerStore :=
  Chainstore.get v st (.opts { chainOpts with name := some (.str v.name) })

/-- Name computation in `Chainstore.namespace`: a falsy argument (absent or
the empty string) is replaced by 32 random bytes; a buffer is hex-encoded;
then a namespaced parent prepends `parent.name + ':'`. -/
def namespaceName (c : Crypto) (v : View) (nameArg : Option NameArg) : String :=
  let n1 : NameArg :=
    match nameArg with
    | none => .buf (c.randomBytes 32)
    | some (.str s) => if s = "" then .buf (c.randomBytes 32) else .str s
    | some (.buf b) => .buf b
  let n2 : String :=
    match n1 with
    | .buf b => encodeBytes b
    | .str s => s
  if v.isNamespaced then v.name ++ NAMESPACE_SEPERATOR ++ n2 else n2

/-- Source `Chainstore.namespace`: a child view over the same engine, with
`this.name = opts.name || 'default'` and `_isNamespaced = !!opts.name`. -/
def mkNamespace (c : Crypto) (v : View) (nameArg : Option NameArg) : View :=
  let nm := namespaceName c v nameArg
  { name := if nm = "" then "default" else nm,
    isNamespaced := !(decide (nm = "")),
    hasParent := true,
    openedChains := [] }

/-- The effect of a non-root `Chainstore._close` on the shared cache: the
loop `for (const dkey of this._openedChains)` iterates the `Map` itself and
therefore yields `[id, chain]` entry pairs, each of which is passed to
`cache.decrement` as the key. -/
def closeNonRootCache (owned : List (String × Chain)) (cache : Cache) : Cache :=
  owned.foldl (fun c p => c.decrement (.pair p.1 p.2)) cache

/-- The generator `allReferenced(cache)`: every cache value whose entry has
`refs > 0`, in entry order. -/
def allReferenced (cache : Cache) : List Chain :=
  (cache.entries.filter (fun p => p.2.refs > 0)).map (fun p => p.2.value)

/-- The chain selection of `Chainstore.replicate`: the root view (no
parent) takes `allReferenced(this.cache)`, a namespaced view takes its
`_openedChains` values. -/
def replicateSelection (v : View) (cache : Cache) : List Chain :=
  if v.hasParent then v.openedChains.map (fun p => p.2) else allReferenced cache

/-! ### Concrete instantiation used by witnesses and counterexamples -/

/-- A concrete crypto collaborator: deterministic, executable stand-ins for
the external primitives (tag-prefixed so distinct roles stay distinct). -/
def testCrypto : Crypto :=
  { randomBytes := fun n => List.replicate n 7,
    keyPair := fun seed => (0 :: seed, 1 :: seed),
    discoveryKey := fun pk => 2 :: pk,
    deriveSeed := fun ns master name => ns ++ master ++ name }

/-- An opened engine over an empty cache. -/
def storeA : InnerStore :=
  { opened := true, crypto := testCrypto, masterKey := [9],
    cache := { maxSize := 10, entries := [] }, nextToken := 0 }

/-- A concrete chain handle with public key `[n]`. -/
def chainT (n : Nat) : Chain :=
  { publicKey := some [n], secretKey := none, discoveryKey := [2, n],
    createIfMissing := true, token := n }

/-! ### Association-list lemmas -/

theorem alookup_mem {α β : Type} [DecidableEq α] {l : List (α × β)} {k : α} {v : β}
    (h : alookup l k = some v) : (k, v) ∈ l := by
  induction l with
  | nil => simp [alookup] at h
  | cons p rest ih =>
    obtain ⟨a, b⟩ := p
    rw [alookup] at h
    by_cases hk : (a, b).1 = k
    · rw [if_pos hk] at h
      injection h with hb
      simp only [] at hk
      subst hk
      subst hb
      exact List.mem_cons_self _ _
    · rw [if_neg hk] at h
      exact List.mem_cons_of_mem _ (ih h)

theorem alookup_append_none {α β : Type} [DecidableEq α] {l1 : List (α × β)}
    (l2 : List (α × β)) {k : α} (h : alookup l1 k = none) :
    alookup (l1 ++ l2) k = alookup l2 k := by
  induction l1 with
  | nil => simp
  | cons p rest ih =>
    rw [alookup] at h
    by_cases hk : p.1 = k
    · rw [if_pos hk] at h; cases h
    · rw [if_neg hk] at h
      simpa [alookup, hk] using ih h

theorem alookup_append_some {α β : Type} [DecidableEq α] {l1 : List (α × β)}
    (l2 : List (α × β)) {k : α} {v : β} (h : alookup l1 k = some v) :
    alookup (l1 ++ l2) k = some v := by
  induction l1 with
  | nil => simp [alookup] at h
  | cons p rest ih =>
    rw [alookup] at h
    by_cases hk : p.1 = k
    · rw [if_pos hk] at h
      simp [alookup, hk, h]
    · rw [if_neg hk] at h
      simpa [alookup, hk] using ih h

theorem alookup_aremove_self {α β : Type} [DecidableEq α] (l : List (α × β)) (k : α) :
    alookup (aremove l k) k = none := by
  induction l with
  | nil => rfl
  | cons p rest ih =>
    rw [aremove]
    by_cases hk : p.1 = k
    · rwa [if_pos hk]
    · rw [if_neg hk, alookup, if_neg hk]
      exact ih

theorem alookup_aremove_ne {α β : Type} [DecidableEq α] (l : List (α × β)) {k j : α}
    (h : j ≠ k) : alookup (aremove l k) j = alookup l j := by
  induction l with
  | nil => rfl
  | cons p rest ih =>
    rw [aremove]
    by_cases hk : p.1 = k
    · rw [if_pos hk, alookup, if_neg (by rw [hk]; exact fun e => h e.symm)]
      exact ih
    · rw [if_neg hk, alookup, alookup]
      by_cases hj : p.1 = j
      · rw [if_pos hj, if_pos hj]
      · rw [if_neg hj, if_neg hj]
        exact ih

theorem alookup_aupdate_self {α β : Type} [DecidableEq α] (f : β → β) (l : List (α × β)) (k : α) :
    alookup (aupdate f l k) k = (alookup l k).map f := by
  induction l with
  | nil => rfl
  | cons p rest ih =>
    rw [aupdate]
    by_cases hk : p.1 = k
    · rw [if_pos hk, alookup, if_pos hk, alookup, if_pos hk]
      simp
    · rw [if_neg hk, alookup, if_neg hk, alookup, if_neg hk]
      exact ih

theorem alookup_aupdate_ne {α β : Type} [DecidableEq α] (f : β → β) (l : List (α × β)) {k j : α}
    (h : j ≠ k) : alookup (aupdate f l k) j = alookup l j := by
  induction l with
  | nil => rfl
  | cons p rest ih =>
    rw [aupdate]
    by_cases hk : p.1 = k
    · rw [if_pos hk, alookup, alookup]
      by_cases hj : p.1 = j
      · exact absurd (hj ▸ hk) h
      · rw [if_neg hj, if_neg hj]
    · rw [if_neg hk, alookup, alookup]
      by_cases hj : p.1 = j
      · rw [if_pos hj, if_pos hj]
      · rw [if_neg hj, if_neg hj]
        exact ih

theorem aupdate_eq_of_none {α β : Type} [DecidableEq α] (f : β → β) {l : List (α × β)} {k : α}
    (h : alookup l k = none) : aupdate f l k = l := by
  induction l with
  | nil => rfl
  | cons p rest ih =>
    rw [alookup] at h
    by_cases hk : p.1 = k
    · rw [if_pos hk] at h; cases h
    · rw [if_neg hk] at h
      rw [aupdate, if_neg hk, ih h]

/-! ### Behaviour of `get` on resolved ids -/

/-- The cache id a `get` argument resolves to (`hex(discovery_key)`), when
key resolution succeeds. -/
def resolvedId (c : Crypto) (master : Bytes) (arg : GetArg) : Option String :=
  match generateKeys c master arg with
  | .error _ => none
  | .ok keys => some (encodeBytes keys.discoveryKey)
/-- Proof-layer abbreviation: the cache after an LRU touch of `(k, e)`. -/
def touchedCache (c : Cache) (k : JsKey) (e : CacheEntry) : Cache :=
  { c with entries := aremove c.entries k ++ [(k, e)] }

/-- Proof-layer abbreviation: the cache after inserting a fresh zero-ref
entry at `k`. -/
def insertedCache (c : Cache) (k : JsKey) (ch : Chain) : Cache :=
  { c with entries := c.entries ++ [(k, { value := ch, refs := 0 })] }

/-- Proof-layer abbreviation: the chain `get` constructs on a cache miss. -/
def mkChain (keys : GeneratedKeys) (tok : Nat) : Chain :=
  { publicKey := keys.publicKey, secretKey := keys.secretKey,
    discoveryKey := keys.discoveryKey,
    createIfMissing := keys.publicKey.isSome, token := tok }

theorem innerGet_hit {st : InnerStore} {arg : GetArg} {keys : GeneratedKeys} {e : CacheEntry}
    (hop : st.opened = true)
    (hkeys : generateKeys st.crypto st.masterKey arg = .ok keys)
    (hlook : alookup st.cache.entries (.str (encodeBytes keys.discoveryKey)) = some e) :
    InnerStore.get st arg =
      (.ok e.value,
       { st with cache := touchedCache st.cache (.str (encodeBytes keys.discoveryKey)) e }) := by
  simp [InnerStore.get, Cache.get, touchedCache, hop, hkeys, hlook]

theorem innerGet_miss {st : InnerStore} {arg : GetArg} {keys : GeneratedKeys}
    (hop : st.opened = true)
    (hkeys : generateKeys st.crypto st.masterKey arg = .ok keys)
    (hlook : alookup st.cache.entries (.str (encodeBytes keys.discoveryKey)) = none)
    (hroom : st.cache.entries.length < st.cache.maxSize) :
    InnerStore.get st arg =
      (.ok (mkChain keys st.nextToken),
       { st with
           cache := insertedCache st.cache (.str (encodeBytes keys.discoveryKey))
                      (mkChain keys st.nextToken),
           nextToken := st.nextToken + 1 }) := by
  have hlen : ¬ (st.cache.entries.length + 1 > st.cache.maxSize) := by omega
  simp [InnerStore.get, Cache.get, Cache.set, insertedCache, mkChain, hop, hkeys, hlook, hlen]

theorem innerGet_resolved {st : InnerStore} {arg : GetArg} {i : String}
    (hop : st.opened = true)
    (h : resolvedId st.crypto st.masterKey arg = some i)
    (hroom : st.cache.entries.length < st.cache.maxSize) :
    ∃ ch st1, InnerStore.get st arg = (.ok ch, st1) ∧
      st1.crypto = st.crypto ∧ st1.masterKey = st.masterKey ∧ st1.opened = st.opened ∧
      (∃ e, alookup st1.cache.entries (.str i) = some e ∧ e.value = ch) := by
  unfold resolvedId at h
  cases hkeys : generateKeys st.crypto st.masterKey arg with
  | error err => rw [hkeys] at h; cases h
  | ok keys =>
    rw [hkeys] at h
    injection h with hi
    subst hi
    cases hlook : alookup st.cache.entries (.str (encodeBytes keys.discoveryKey)) with
    | some e =>
      refine ⟨e.value, _, innerGet_hit hop hkeys hlook, rfl, rfl, rfl, e, ?_, rfl⟩
      show alookup (touchedCache _ _ _).entries _ = _
      unfold touchedCache
      rw [alookup_append_none _ (alookup_aremove_self _ _)]
      simp [alookup]
    | none =>
      refine ⟨mkChain keys st.nextToken, _, innerGet_miss hop hkeys hlook hroom, rfl, rfl, rfl,
        { value := mkChain keys st.nextToken, refs := 0 }, ?_, rfl⟩
      show alookup (insertedCache _ _ _).entries _ = _
      unfold insertedCache
      rw [alookup_append_none _ hlook]
      simp [alookup]

theorem maybeIncrement_values (v : View) (st : InnerStore) (ch : Chain) :
    ∃ v' st', maybeIncrement v st ch = (v', st') ∧
      st'.crypto = st.crypto ∧ st'.masterKey = st.masterKey ∧ st'.opened = st.opened ∧
      ∀ j, (alookup st'.cache.entries j).map (fun e => e.value)
            = (alookup st.cache.entries j).map (fun e => e.value) := by
  cases h : alookup v.openedChains (encodeBytes ch.discoveryKey) with
  | some c0 =>
    refine ⟨v, st, ?_, rfl, rfl, rfl, fun j => rfl⟩
    simp [maybeIncrement, h]
  | none =>
    refine ⟨{ v with openedChains := v.openedChains ++ [(encodeBytes ch.discoveryKey, ch)] },
            { st with cache := st.cache.increment (.str (encodeBytes ch.discoveryKey)) },
            ?_, rfl, rfl, rfl, fun j => ?_⟩
    · simp [maybeIncrement, h]
    · show (alookup (Cache.increment _ _).entries j).map _ = _
      unfold Cache.increment
      by_cases hj : j = JsKey.str (encodeBytes ch.discoveryKey)
      · subst hj
        show (alookup (aupdate _ _ _) _).map _ = _
        rw [alookup_aupdate_self]
        cases alookup st.cache.entries (JsKey.str (encodeBytes ch.discoveryKey)) <;> simp
      · show (alookup (aupdate _ _ _) _).map _ = _
        rw [alookup_aupdate_ne _ _ hj]

theorem innerGet_sameId {st : InnerStore} {o1 o2 : GetArg} {i : String}
    (hop : st.opened = true)
    (h1 : resolvedId st.crypto st.masterKey o1 = some i)
    (h2 : resolvedId st.crypto st.masterKey o2 = some i)
    (hroom : st.cache.entries.length < st.cache.maxSize) :
    ∃ ch st1 st2, InnerStore.get st o1 = (.ok ch, st1) ∧
      InnerStore.get st1 o2 = (.ok ch, st2) := by
  obtain ⟨ch, st1, hget, hc, hm, ho, e, hlook, hval⟩ := innerGet_resolved hop h1 hroom
  have h2' : resolvedId st1.crypto st1.masterKey o2 = some i := by rw [hc, hm]; exact h2
  unfold resolvedId at h2'
  cases hkeys2 : generateKeys st1.crypto st1.masterKey o2 with
  | error err => rw [hkeys2] at h2'; cases h2'
  | ok keys2 =>
    rw [hkeys2] at h2'
    injection h2' with hi2
    have hlook2 : alookup st1.cache.entries (.str (encodeBytes keys2.discoveryKey)) = some e := by
      rw [hi2]; exact hlook
    have hop1 : st1.opened = true := by rw [ho]; exact hop
    have hget2 := innerGet_hit hop1 hkeys2 hlook2
    rw [hval] at hget2
    exact ⟨ch, st1, _, hget, hget2⟩

theorem outer_of_inner {v : View} {st stA : InnerStore} {arg : GetArg} {ch : Chain}
    (h : InnerStore.get st arg = (.ok ch, stA)) :
    Chainstore.get v st arg =
      (.ok ch, (maybeIncrement v stA ch).1, (maybeIncrement v stA ch).2) := by
  unfold Chainstore.get
  rw [h]

theorem outerGet_sameId (va vb : View) {st : InnerStore} {o1 o2 : GetArg} {i : String}
    (hop : st.opened = true)
    (h1 : resolvedId st.crypto st.masterKey o1 = some i)
    (h2 : resolvedId st.crypto st.masterKey o2 = some i)
    (hroom : st.cache.entries.length < st.cache.maxSize) :
    ∃ ch v1 st1 v2 st2,
      Chainstore.get va st o1 = (.ok ch, v1, st1) ∧
      Chainstore.get vb st1 o2 = (.ok ch, v2, st2) := by
  obtain ⟨ch, stA, hget, hc, hm, ho, e, hlook, hval⟩ := innerGet_resolved hop h1 hroom
  obtain ⟨v1, st1, hmi, hc1, hm1, ho1, hvals⟩ := maybeIncrement_values va stA ch
  have hout1 : Chainstore.get va st o1 = (.ok ch, v1, st1) := by
    rw [outer_of_inner hget, hmi]
  have hvi := hvals (.str i)
  rw [hlook] at hvi
  obtain ⟨e', hlook', hval'⟩ : ∃ e', alookup st1.cache.entries (.str i) = some e' ∧ e'.value = ch := by
    cases hl : alookup st1.cache.entries (.str i) with
    | none => rw [hl] at hvi; simp at hvi
    | some e2 =>
      rw [hl] at hvi
      simp at hvi
      exact ⟨e2, rfl, by rw [hvi, hval]⟩
  have hop1 : st1.opened = true := by rw [ho1, ho]; exact hop
  have h2' : resolvedId st1.crypto st1.masterKey o2 = some i := by rw [hc1, hc, hm1, hm]; exact h2
  unfold resolvedId at h2'
  cases hkeys2 : generateKeys st1.crypto st1.masterKey o2 with
  | error err => rw [hkeys2] at h2'; cases h2'
  | ok keys2 =>
    rw [hkeys2] at h2'
    injection h2' with hi2
    have hlook2 : alookup st1.cache.entries (.str (encodeBytes keys2.discoveryKey)) = some e' := by
      rw [hi2]; exact hlook'
    have hget2 := innerGet_hit hop1 hkeys2 hlook2
    rw [hval'] at hget2
    exact ⟨ch, v1, st1, _, _, hout1, outer_of_inner hget2⟩

/-! ### C6: deduplication across equivalent key shapes -/

/-- The equivalent key-material shapes of the deduplication property: a raw
key buffer, `{key}`, `{discoveryKey: H(key)}`, and `{keyPair}`. -/
def equivShapes (H : Bytes → Bytes) (k sk : Bytes) : List GetArg :=
  [ .buf k,
    .opts { key := some (.buf k) },
    .opts { discoveryKey := some (.buf (H k)) },
    .opts { keyPair := some { publicKey := k, secretKey := some sk } } ]

theorem shape_resolvedId (c : Crypto) (master k sk : Bytes) (o : GetArg)
    (h : o ∈ equivShapes c.discoveryKey k sk) :
    resolvedId c master o = some (encodeBytes (c.discoveryKey k)) := by
  simp only [equivShapes, List.mem_cons, List.not_mem_nil, or_false] at h
  rcases h with h | h | h | h <;> subst h <;> rfl

/-- C6: for an opened store with cache headroom, two successive `get` calls
whose arguments carry equivalent key material — the raw key buffer,
`{key: k}`, `{discoveryKey: H(k)}`, or `{keyPair: {publicKey: k,
secretKey: sk}}` — return the identical chain handle, because the first
call inserts the chain into the cache synchronously and the key resolver
maps all these shapes to the same discovery-key id. -/
theorem c6_get_dedup_equiv_shapes (st : InnerStore) (k sk : Bytes) (o1 o2 : GetArg)
    (h1 : o1 ∈ equivShapes st.crypto.discoveryKey k sk)
    (h2 : o2 ∈ equivShapes st.crypto.discoveryKey k sk)
    (hop : st.opened = true)
    (hroom : st.cache.entries.length < st.cache.maxSize) :
    ∃ ch st1 st2, InnerStore.get st o1 = (.ok ch, st1) ∧
      InnerStore.get st1 o2 = (.ok ch, st2) :=
  innerGet_sameId hop (shape_resolvedId _ _ _ _ _ h1) (shape_resolvedId _ _ _ _ _ h2) hroom

/-- Witness for C6 at a concrete store: the raw-buffer shape and the
discovery-key shape for key `[1]` yield the identical handle. -/
theorem c6_get_dedup_witness :
    (GetArg.buf [1]) ∈ equivShapes storeA.crypto.discoveryKey [1] [3] ∧
    (GetArg.opts { discoveryKey := some (.buf [2, 1]) })
        ∈ equivShapes storeA.crypto.discoveryKey [1] [3] ∧
    storeA.opened = true ∧ storeA.cache.entries.length < storeA.cache.maxSize ∧
    ∃ ch st1 st2, InnerStore.get storeA (.buf [1]) = (.ok ch, st1) ∧
      InnerStore.get st1 (.opts { discoveryKey := some (.buf [2, 1]) }) = (.ok ch, st2) :=
  ⟨by decide, by decide, rfl, by decide,
   c6_get_dedup_equiv_shapes storeA [1] [3] _ _ (by decide) (by decide) rfl (by decide)⟩

/-! ### C1: `isExternal` -/

/-- C1: `isExternal` can never return a boolean on an opened store — it
reads `this._cache`, a property the constructor never assigns (only
`this.cache` exists), so the `.entry` access throws a `TypeError` at every
input whose key resolution succeeds.  Evaluated here at `{key: [1]}`. -/
theorem c1_isExternal_always_throws :
    InnerStore.isExternal storeA (.opts { key := some (.buf [1]) })
      = .error .typeError := rfl

/-! ### C8: `default: true` without a name -/

/-- C8 counterexample: options containing `default: true` but no `name`
do not always throw — with a `key` also present, the resolver's `key`
branch runs first and `get` succeeds. -/
theorem c8_default_with_key_no_throw_cex :
    (InnerStore.get storeA (.opts { default := true, key := some (.buf [1]) })).1 =
      .ok { publicKey := some [1], secretKey := none, discoveryKey := [2, 1],
            createIfMissing := true, token := 0 } := rfl

/-- C8 (amended): on an opened store, `get` with options whose `default` is
set but whose `name` is falsy and which carry neither `key` nor `keyPair`
throws `MissingName` synchronously and leaves the view and engine state
unchanged. -/
theorem c8_missing_name_amended (v : View) (st : InnerStore) (o : ChainOpts)
    (hop : st.opened = true) (hd : o.default = true)
    (hn : nameTruthy o.name = false) (hk : o.key = none) (hkp : o.keyPair = none) :
    Chainstore.get v st (.opts o) = (.error .missingName, v, st) := by
  have hgen : generateKeys st.crypto st.masterKey (.opts o) = .error .missingName := by
    simp [generateKeys, normalizeOpts, hd, hn, hk, hkp]
  simp [Chainstore.get, InnerStore.get, hop, hgen]

/-- Witness for C8 (amended) at `{default: true}` on a concrete store. -/
theorem c8_missing_name_witness :
    ({ default := true } : ChainOpts).default = true ∧
    Chainstore.get rootView storeA (.opts { default := true })
      = (.error .missingName, rootView, storeA) :=
  ⟨rfl, c8_missing_name_amended rootView storeA _ rfl rfl rfl rfl rfl⟩

/-! ### C3: check-if-exists -/

/-- C3 counterexample: for an uncached discovery key, a `NotFound` read
error is passed to the callback as an error — not converted to `false` as
the claim states. -/
theorem c3_notfound_propagates_cex :
    InnerStore.checkIfExists storeA (.buf [2, 1])
        (fun _ => .err .notFound) (fun _ => none)
      = .error .notFound := rfl

/-- C3 (amended): for an uncached discovery key, check-if-exists reads the
`key` file at the derived path and yields `true` exactly when the read
succeeds with data; a callback success carrying no buffer yields `false`;
and every read or close error — `NotFound` included — is propagated to the
callback unchanged. -/
theorem c3_checkIfExists_amended (st : InnerStore) (dk : KeyArg)
    (readAt : String → ReadResult) (closeAt : String → Option JsError)
    (hnc : st.cache.has (.str (encodeKey dk)) = false) :
    InnerStore.checkIfExists st dk readAt closeAt =
      (match readAt (chainKeyPath (encodeKey dk)) with
       | .err e => .error e
       | .ok key =>
         match closeAt (chainKeyPath (encodeKey dk)) with
         | some e => .error e
         | none => match key with | none => .ok false | some _ => .ok true) := by
  simp [InnerStore.checkIfExists, hnc]

/-- Witness for C3 (amended): a successful 32-byte read yields `true`. -/
theorem c3_checkIfExists_amended_witness :
    InnerStore.checkIfExists storeA (.buf [2, 1])
        (fun _ => .ok (some [5])) (fun _ => none) = .ok true :=
  (c3_checkIfExists_amended storeA (.buf [2, 1])
    (fun _ => .ok (some [5])) (fun _ => none) (by decide)).trans rfl

/-! ### C4: close error reporting -/

/-- The rightmost `some` in a list of optional close outcomes: the error of
the last chain whose close failed, in completion order. -/
def lastErrorIn : List (Option JsError) → Option JsError
  | [] => none
  | r :: rest =>
    match lastErrorIn rest with
    | some e => some e
    | none => r

theorem foldl_overwrite_eq_lastErrorIn (l : List (Option JsError)) (init : Option JsError) :
    l.foldl (fun acc r => match r with | some e => some e | none => acc) init =
      (match lastErrorIn l with | some e => some e | none => init) := by
  induction l generalizing init with
  | nil => rfl
  | cons r rest ih =>
    rw [List.foldl_cons, ih]
    cases hrest : lastErrorIn rest with
    | some e => simp [lastErrorIn, hrest]
    | none => cases r <;> simp [lastErrorIn, hrest]

/-- An engine whose cache holds two zero-ref chains, for the close
counterexample. -/
def storeC4 : InnerStore :=
  { opened := true, crypto := testCrypto, masterKey := [9],
    cache := { maxSize := 10,
               entries := [(.str "0201", { value := chainT 1, refs := 0 }),
                           (.str "0202", { value := chainT 2, refs := 0 })] },
    nextToken := 3 }

/-- C4 counterexample: with two live chains failing with distinct errors
(`io 1` then `io 2`, in completion order), the close callback does not
receive the first error. -/
theorem c4_first_error_cex :
    InnerStore.closeResult storeC4
        (fun c => if c.token = 1 then some (.io 1) else some (.io 2))
      ≠ some (.io 1) := by decide

/-- C4 (amended): when the engine closes with a non-empty cache, the close
callback reports the error of the *last* chain whose close failed, in
completion order (`error = err` keeps overwriting one slot), and reports
success exactly when no chain close failed; an empty cache reports
success. -/
theorem c4_close_reports_last_error (st : InnerStore) (closeRes : Chain → Option JsError) :
    InnerStore.closeResult st closeRes =
      if st.cache.entries.isEmpty then none
      else lastErrorIn (st.cache.entries.map (fun p => closeRes p.2.value)) := by
  unfold InnerStore.closeResult
  by_cases h : st.cache.entries.isEmpty
  · rw [if_pos h, if_pos h]
  · rw [if_neg h, if_neg h, foldl_overwrite_eq_lastErrorIn]
    cases lastErrorIn (st.cache.entries.map (fun p => closeRes p.2.value)) <;> rfl

/-! ### C5: chain error suppression -/

/-- An engine holding one chain, for the error-suppression counterexample. -/
def storeC5 : InnerStore :=
  { opened := true, crypto := testCrypto, masterKey := [9],
    cache := { maxSize := 10, entries := [(.str "0201", { value := chainT 1, refs := 0 })] },
    nextToken := 2 }

/-- C5 counterexample: a chain error that is *not* `UnknownKeypair`
(here `io 7`) produces no engine `error` event — the claim says the engine
emits an `error` event carrying it. -/
theorem c5_engine_emits_no_error_cex :
    ¬ (JsError.io 7 ∈ (InnerStore.onChainError storeC5 "0201" (.io 7)).errorEvents) := by
  decide

/-- C5 (amended): the `onerror` observer wired by `get` suppresses *every*
chain error from the engine's `error` event — `UnknownKeypair` or not — and
its only effects are removing the id from the cache (and releasing the
chain's gate). -/
theorem c5_onerror_suppresses_all (st : InnerStore) (id : String) (err : JsError) :
    (InnerStore.onChainError st id err).errorEvents = st.errorEvents ∧
    (InnerStore.onChainError st id err).cache = st.cache.delete (.str id) :=
  ⟨rfl, rfl⟩

/-! ### C9: replicate chain selection -/

/-- C9: `replicate` selects for initial injection exactly the cache
entries with positive refcount when the view is the root, and exactly the
view's owned chains otherwise. -/
theorem c9_replicate_selection (v : View) (cache : Cache) (c : Chain) :
    c ∈ replicateSelection v cache ↔
      (if v.hasParent then ∃ id, (id, c) ∈ v.openedChains
       else ∃ k e, (k, e) ∈ cache.entries ∧ e.refs > 0 ∧ e.value = c) := by
  unfold replicateSelection allReferenced
  by_cases h : v.hasParent
  · rw [if_pos h, if_pos h]
    constructor
    · intro hm
      obtain ⟨⟨id, c'⟩, hmem, hc⟩ := List.mem_map.mp hm
      cases hc
      exact ⟨id, hmem⟩
    · rintro ⟨id, hm⟩
      exact List.mem_map.mpr ⟨(id, c), hm, rfl⟩
  · rw [if_neg h, if_neg h]
    constructor
    · intro hm
      obtain ⟨⟨k, e⟩, hmem, hc⟩ := List.mem_map.mp hm
      obtain ⟨hin, hrefs⟩ := List.mem_filter.mp hmem
      refine ⟨k, e, hin, ?_, hc⟩
      simpa using hrefs
    · rintro ⟨k, e, hin, hrefs, hval⟩
      refine List.mem_map.mpr ⟨(k, e), List.mem_filter.mpr ⟨hin, by simpa using hrefs⟩, hval⟩

/-! ### C2: non-root close does not decrement -/

/-- Keys actually stored in the engine's cache are always strings. -/
def strKeysOnly (l : List (JsKey × CacheEntry)) : Bool :=
  l.all (fun p => match p.1 with | .str _ => true | _ => false)

theorem alookup_pair_of_strKeys {l : List (JsKey × CacheEntry)} (h : strKeysOnly l = true)
    (a : String) (b : Chain) : alookup l (.pair a b) = none := by
  induction l with
  | nil => rfl
  | cons p rest ih =>
    rw [strKeysOnly, List.all_cons, Bool.and_eq_true] at h
    obtain ⟨h1, h2⟩ := h
    have hne : p.1 ≠ JsKey.pair a b := by
      intro he
      rw [he] at h1
      simp at h1
    rw [alookup, if_neg hne]
    exact ih h2

theorem closeNonRoot_noop (owned : List (String × Chain)) (cache : Cache)
    (h : strKeysOnly cache.entries = true) :
    closeNonRootCache owned cache = cache := by
  induction owned generalizing cache with
  | nil => rfl
  | cons p rest ih =>
    have hdec : cache.decrement (.pair p.1 p.2) = cache := by
      unfold Cache.decrement
      rw [aupdate_eq_of_none _ (alookup_pair_of_strKeys h p.1 p.2)]
    show List.foldl _ cache (p :: rest) = cache
    rw [List.foldl_cons]
    show List.foldl _ (cache.decrement (.pair p.1 p.2)) rest = cache
    rw [hdec]
    exact ih cache h

/-- A cache pinning one chain with `refs = 1` and a namespaced view owning
that chain. -/
def cacheC2 : Cache :=
  { maxSize := 10, entries := [(.str "0201", { value := chainT 1, refs := 1 })] }

/-- The view used in the C2 evaluation. -/
def viewC2 : View :=
  { name := "ns", isNamespaced := true, hasParent := true,
    openedChains := [("0201", chainT 1)] }

/-- C2: closing a non-root view does not decrement the refcount of its
owned chain — the close loop iterates the `openedChains` map itself,
passing `[id, chain]` pairs (not the ids) to `cache.decrement`, so the
entry's refs stay at 1 where the claim requires 0. -/
theorem c2_close_leaves_refs_unchanged :
    Cache.refsOf cacheC2 (.str "0201") = 1 ∧
    Cache.refsOf (closeNonRootCache viewC2.openedChains cacheC2) (.str "0201") = 1 := by
  decide

/-! ### C7: one ref per (view, chain) pair -/

/-- Key-shape invariant the engine maintains: every cache entry is stored
at the hex of its chain's discovery key. -/
def entryKeyOk (p : JsKey × CacheEntry) : Bool :=
  decide (p.1 = .str (encodeBytes p.2.value.discoveryKey))

/-- Decidable well-formedness of a cache. -/
def cacheWF (c : Cache) : Bool := c.entries.all entryKeyOk

/-- Proof-layer abbreviation: the engine after `cache.increment(i)`. -/
def incrState (st : InnerStore) (i : String) : InnerStore :=
  { st with cache := st.cache.increment (.str i) }

/-- Proof-layer abbreviation: the view after recording ownership of a
chain. -/
def pushOwned (v : View) (i : String) (ch : Chain) : View :=
  { v with openedChains := v.openedChains ++ [(i, ch)] }

theorem wf_key_of_lookup {c : Cache} (hwf : cacheWF c = true) {i : String} {e : CacheEntry}
    (h : alookup c.entries (.str i) = some e) :
    encodeBytes e.value.discoveryKey = i := by
  have hall := List.all_eq_true.mp hwf _ (alookup_mem h)
  simp only [entryKeyOk, decide_eq_true_eq] at hall
  injection hall with h2
  exact h2.symm

theorem aremove_all {α β : Type} [DecidableEq α] (p : α × β → Bool) {l : List (α × β)}
    (h : l.all p = true) (k : α) : (aremove l k).all p = true := by
  induction l with
  | nil => rfl
  | cons q rest ih =>
    rw [List.all_cons, Bool.and_eq_true] at h
    rw [aremove]
    by_cases hk : q.1 = k
    · rw [if_pos hk]
      exact ih h.2
    · rw [if_neg hk, List.all_cons, Bool.and_eq_true]
      exact ⟨h.1, ih h.2⟩

theorem aupdate_all_entryKeyOk {l : List (JsKey × CacheEntry)} (f : CacheEntry → CacheEntry)
    (hf : ∀ e, (f e).value = e.value)
    (h : l.all entryKeyOk = true) (k : JsKey) :
    (aupdate f l k).all entryKeyOk = true := by
  induction l with
  | nil => rfl
  | cons q rest ih =>
    rw [List.all_cons, Bool.and_eq_true] at h
    rw [aupdate]
    by_cases hk : q.1 = k
    · rw [if_pos hk, List.all_cons, Bool.and_eq_true]
      refine ⟨?_, h.2⟩
      have h1 := h.1
      simp only [entryKeyOk, decide_eq_true_eq, hf] at h1 ⊢
      exact h1
    · rw [if_neg hk, List.all_cons, Bool.and_eq_true]
      exact ⟨h.1, ih h.2⟩

theorem cacheWF_touched {c : Cache} {i : String} {e : CacheEntry}
    (hwf : cacheWF c = true) (h : alookup c.entries (.str i) = some e) :
    cacheWF (touchedCache c (.str i) e) = true := by
  unfold cacheWF touchedCache
  rw [List.all_append, Bool.and_eq_true]
  refine ⟨aremove_all _ hwf _, ?_⟩
  simp only [List.all_cons, List.all_nil, Bool.and_true]
  exact List.all_eq_true.mp hwf _ (alookup_mem h)

theorem cacheWF_inserted {c : Cache} (ch : Chain) (hwf : cacheWF c = true) :
    cacheWF (insertedCache c (.str (encodeBytes ch.discoveryKey)) ch) = true := by
  unfold cacheWF insertedCache
  rw [List.all_append, Bool.and_eq_true]
  refine ⟨hwf, ?_⟩
  simp [entryKeyOk]

theorem alookup_touched_ne {α β : Type} [DecidableEq α] {l : List (α × β)} {k j : α} (e : β)
    (hj : j ≠ k) :
    alookup (aremove l k ++ [(k, e)]) j = alookup l j := by
  cases hrem : alookup (aremove l k) j with
  | some v =>
    rw [alookup_append_some _ hrem, ← alookup_aremove_ne l hj, hrem]
  | none =>
    rw [alookup_append_none _ hrem, ← alookup_aremove_ne l hj, hrem]
    have hk : ¬ (k = j) := fun h => hj h.symm
    simp [alookup, hk]

theorem alookup_touched_self {α β : Type} [DecidableEq α] (l : List (α × β)) (k : α) (e : β) :
    alookup (aremove l k ++ [(k, e)]) k = some e := by
  rw [alookup_append_none _ (alookup_aremove_self _ _)]
  simp [alookup]

theorem refsOf_touched {c : Cache} {i : String} {e : CacheEntry}
    (h : alookup c.entries (.str i) = some e) (j : JsKey) :
    (touchedCache c (.str i) e).refsOf j = c.refsOf j := by
  simp only [Cache.refsOf, touchedCache]
  by_cases hj : j = JsKey.str i
  · subst hj
    rw [alookup_touched_self, h]
  · rw [alookup_touched_ne e hj]

theorem refsOf_increment_self {c : Cache} {k : JsKey} {e : CacheEntry}
    (h : alookup c.entries k = some e) :
    (c.increment k).refsOf k = c.refsOf k + 1 := by
  simp only [Cache.refsOf, Cache.increment]
  rw [alookup_aupdate_self, h]
  simp

theorem refsOf_increment_ne (c : Cache) {k j : JsKey} (hj : j ≠ k) :
    (c.increment k).refsOf j = c.refsOf j := by
  simp only [Cache.refsOf, Cache.increment]
  rw [alookup_aupdate_ne _ _ hj]

theorem refsOf_inserted_self {c : Cache} {i : String} (ch : Chain)
    (h : alookup c.entries (.str i) = none) :
    (insertedCache c (.str i) ch).refsOf (.str i) = 0 := by
  simp only [Cache.refsOf, insertedCache]
  rw [alookup_append_none _ h]
  simp [alookup]

theorem maybeIncrement_fresh {v : View} (st : InnerStore) {ch : Chain} {i : String}
    (hkey : encodeBytes ch.discoveryKey = i)
    (hfresh : alookup v.openedChains i = none) :
    maybeIncrement v st ch = (pushOwned v i ch, incrState st i) := by
  subst hkey
  simp [maybeIncrement, pushOwned, incrState, hfresh]

theorem maybeIncrement_owned {v : View} (st : InnerStore) {ch : Chain} {i : String} {ch0 : Chain}
    (hkey : encodeBytes ch.discoveryKey = i)
    (howned : alookup v.openedChains i = some ch0) :
    maybeIncrement v st ch = (v, st) := by
  subst hkey
  simp [maybeIncrement, howned]

/-- A run of `Chainstore.get` calls through one view (the `default`
variant is `get` with the view's name already resolved into the options,
so it is covered by the same step function). -/
def viewGetMany (v : View) (st : InnerStore) : List GetArg → View × InnerStore
  | [] => (v, st)
  | a :: rest =>
    let r := Chainstore.get v st a
    viewGetMany r.2.1 r.2.2 rest

theorem outerGet_first {v : View} {st : InnerStore} {arg : GetArg} {i : String}
    (hop : st.opened = true)
    (hres : resolvedId st.crypto st.masterKey arg = some i)
    (hwf : cacheWF st.cache = true)
    (hroom : st.cache.entries.length < st.cache.maxSize)
    (hfresh : alookup v.openedChains i = none) :
    ∃ ch v1 st1, Chainstore.get v st arg = (.ok ch, v1, st1) ∧
      alookup v1.openedChains i = some ch ∧
      (∃ e1, alookup st1.cache.entries (.str i) = some e1) ∧
      st1.cache.refsOf (.str i) = st.cache.refsOf (.str i) + 1 ∧
      cacheWF st1.cache = true ∧
      st1.crypto = st.crypto ∧ st1.masterKey = st.masterKey ∧ st1.opened = st.opened := by
  unfold resolvedId at hres
  cases hkeys : generateKeys st.crypto st.masterKey arg with
  | error err => rw [hkeys] at hres; cases hres
  | ok keys =>
    rw [hkeys] at hres
    injection hres with hi
    subst hi
    cases hlook : alookup st.cache.entries (.str (encodeBytes keys.discoveryKey)) with
    | some e =>
      have hkey : encodeBytes e.value.discoveryKey = encodeBytes keys.discoveryKey :=
        wf_key_of_lookup hwf hlook
      have houter := outer_of_inner (v := v) (innerGet_hit hop hkeys hlook)
      rw [maybeIncrement_fresh _ hkey hfresh] at houter
      have htl : alookup
          (touchedCache st.cache (.str (encodeBytes keys.discoveryKey)) e).entries
          (.str (encodeBytes keys.discoveryKey)) = some e := by
        unfold touchedCache
        exact alookup_touched_self _ _ _
      refine ⟨e.value, _, _, houter, ?_, ?_, ?_, ?_, rfl, rfl, rfl⟩
      · show alookup (pushOwned v _ e.value).openedChains _ = some e.value
        simp only [pushOwned]
        rw [alookup_append_none _ hfresh]
        simp [alookup]
      · refine ⟨{ e with refs := e.refs + 1 }, ?_⟩
        show alookup (incrState _ _).cache.entries _ = _
        simp only [incrState, Cache.increment]
        rw [alookup_aupdate_self, htl]
        rfl
      · show (incrState _ _).cache.refsOf _ = _
        simp only [incrState]
        rw [refsOf_increment_self htl, refsOf_touched hlook]
      · show cacheWF (incrState _ _).cache = true
        simp only [incrState, Cache.increment, cacheWF]
        exact aupdate_all_entryKeyOk (fun e => { e with refs := e.refs + 1 })
          (fun _ => rfl) (cacheWF_touched hwf hlook) _
    | none =>
      have houter := outer_of_inner (v := v) (innerGet_miss hop hkeys hlook hroom)
      have hkey : encodeBytes (mkChain keys st.nextToken).discoveryKey
          = encodeBytes keys.discoveryKey := rfl
      rw [maybeIncrement_fresh _ hkey hfresh] at houter
      have hlookIns : alookup
          (insertedCache st.cache (.str (encodeBytes keys.discoveryKey))
            (mkChain keys st.nextToken)).entries
          (.str (encodeBytes keys.discoveryKey))
          = some { value := mkChain keys st.nextToken, refs := 0 } := by
        unfold insertedCache
        rw [alookup_append_none _ hlook]
        simp [alookup]
      refine ⟨mkChain keys st.nextToken, _, _, houter, ?_, ?_, ?_, ?_, rfl, rfl, rfl⟩
      · show alookup (pushOwned v _ _).openedChains _ = some (mkChain keys st.nextToken)
        simp only [pushOwned]
        rw [alookup_append_none _ hfresh]
        simp [alookup]
      · refine ⟨{ value := mkChain keys st.nextToken, refs := 1 }, ?_⟩
        show alookup (incrState _ _).cache.entries _ = _
        simp only [incrState, Cache.increment]
        rw [alookup_aupdate_self, hlookIns]
        rfl
      · show (incrState _ _).cache.refsOf _ = _
        simp only [incrState]
        rw [refsOf_increment_self hlookIns,
            refsOf_inserted_self (mkChain keys st.nextToken) hlook]
        simp only [Cache.refsOf]
        rw [hlook]
        rfl
      · show cacheWF (incrState _ _).cache = true
        simp only [incrState, Cache.increment, cacheWF]
        exact aupdate_all_entryKeyOk (fun e => { e with refs := e.refs + 1 })
          (fun _ => rfl) (cacheWF_inserted (mkChain keys st.nextToken) hwf) _

theorem outerGet_owned {v : View} {st : InnerStore} {arg : GetArg} {i : String} {ch0 : Chain}
    (hop : st.opened = true)
    (hres : resolvedId st.crypto st.masterKey arg = some i)
    (hwf : cacheWF st.cache = true)
    (howned : alookup v.openedChains i = some ch0)
    (hpresent : ∃ e, alookup st.cache.entries (.str i) = some e) :
    ∃ ch st1, Chainstore.get v st arg = (.ok ch, v, st1) ∧
      (∃ e1, alookup st1.cache.entries (.str i) = some e1) ∧
      (∀ j, st1.cache.refsOf j = st.cache.refsOf j) ∧
      cacheWF st1.cache = true ∧
      st1.crypto = st.crypto ∧ st1.masterKey = st.masterKey ∧ st1.opened = st.opened := by
  obtain ⟨e, hlook⟩ := hpresent
  unfold resolvedId at hres
  cases hkeys : generateKeys st.crypto st.masterKey arg with
  | error err => rw [hkeys] at hres; cases hres
  | ok keys =>
    rw [hkeys] at hres
    injection hres with hi
    subst hi
    have hkey : encodeBytes e.value.discoveryKey = encodeBytes keys.discoveryKey :=
      wf_key_of_lookup hwf hlook
    have houter := outer_of_inner (v := v) (innerGet_hit hop hkeys hlook)
    rw [maybeIncrement_owned _ hkey howned] at houter
    refine ⟨e.value, _, houter, ⟨e, ?_⟩, ?_, cacheWF_touched hwf hlook, rfl, rfl, rfl⟩
    · show alookup (touchedCache _ _ _).entries _ = _
      unfold touchedCache
      exact alookup_touched_self _ _ _
    · exact refsOf_touched hlook

theorem viewGetMany_owned {v : View} {args : List GetArg} {i : String} {ch0 : Chain}
    (howned : alookup v.openedChains i = some ch0) :
    ∀ (st : InnerStore),
      st.opened = true →
      (∀ a ∈ args, resolvedId st.crypto st.masterKey a = some i) →
      cacheWF st.cache = true →
      (∃ e, alookup st.cache.entries (.str i) = some e) →
      ∀ j, (viewGetMany v st args).2.cache.refsOf j = st.cache.refsOf j := by
  induction args with
  | nil => intro st _ _ _ _ j; rfl
  | cons a rest ih =>
    intro st hop hall hwf hpresent j
    obtain ⟨ch, st1, hget, hpres1, hrefs1, hwf1, hc, hm, ho⟩ :=
      outerGet_owned hop (hall a (List.mem_cons_self a rest)) hwf howned hpresent
    have hstep : viewGetMany v st (a :: rest) = viewGetMany v st1 rest := by
      show viewGetMany (Chainstore.get v st a).2.1 (Chainstore.get v st a).2.2 rest = _
      rw [hget]
    rw [hstep]
    have hall1 : ∀ b ∈ rest, resolvedId st1.crypto st1.masterKey b = some i := by
      intro b hb
      rw [hc, hm]
      exact hall b (List.mem_cons_of_mem a hb)
    have hop1 : st1.opened = true := by rw [ho]; exact hop
    rw [ih st1 hop1 hall1 hwf1 hpres1 j, hrefs1 j]

/-- C7: however many `get` (or `default`) calls a view makes that resolve
to the same id `i`, the view increments the shared cache's refcount for `i`
exactly once: after the whole run the entry's refs is the initial value
plus one — the first call contributes it and every further call through the
view leaves all refcounts unchanged. -/
theorem c7_view_increments_at_most_once (v : View) (st : InnerStore)
    (args : List GetArg) (i : String)
    (hne : args ≠ [])
    (hall : ∀ a ∈ args, resolvedId st.crypto st.masterKey a = some i)
    (hop : st.opened = true)
    (hwf : cacheWF st.cache = true)
    (hroom : st.cache.entries.length < st.cache.maxSize)
    (hfresh : alookup v.openedChains i = none) :
    (viewGetMany v st args).2.cache.refsOf (.str i)
      = st.cache.refsOf (.str i) + 1 := by
  cases args with
  | nil => exact absurd rfl hne
  | cons a rest =>
    obtain ⟨ch, v1, st1, hget, howned1, hpres1, hrefs1, hwf1, hc, hm, ho⟩ :=
      outerGet_first hop (hall a (List.mem_cons_self a rest)) hwf hroom hfresh
    have hstep : viewGetMany v st (a :: rest) = viewGetMany v1 st1 rest := by
      show viewGetMany (Chainstore.get v st a).2.1 (Chainstore.get v st a).2.2 rest = _
      rw [hget]
    rw [hstep]
    have hall1 : ∀ b ∈ rest, resolvedId st1.crypto st1.masterKey b = some i := by
      intro b hb
      rw [hc, hm]
      exact hall b (List.mem_cons_of_mem a hb)
    have hop1 : st1.opened = true := by rw [ho]; exact hop
    rw [viewGetMany_owned howned1 st1 hop1 hall1 hwf1 hpres1 (.str i), hrefs1]

/-- Witness for C7: three `get` calls for key `[1]` through a fresh view
raise the refcount of the resolved id from 0 to exactly 1. -/
theorem c7_view_increments_witness :
    ([GetArg.buf [1], GetArg.buf [1], GetArg.buf [1]] ≠ ([] : List GetArg)) ∧
    (viewGetMany rootView storeA [.buf [1], .buf [1], .buf [1]]).2.cache.refsOf (.str "0201")
      = storeA.cache.refsOf (.str "0201") + 1 :=
  ⟨by decide,
   c7_view_increments_at_most_once rootView storeA [.buf [1], .buf [1], .buf [1]] "0201"
     (by decide) (by decide) rfl (by decide) (by decide) (by decide)⟩

/-! ### C10: nested namespace names -/

theorem append_sep_ne_empty (a b : String) : a ++ NAMESPACE_SEPERATOR ++ b ≠ "" := by
  intro h
  have hlen := congrArg String.length h
  rw [String.length_append, String.length_append] at hlen
  have hsep : NAMESPACE_SEPERATOR.length = 1 := rfl
  have h0 : ("" : String).length = 0 := rfl
  rw [hsep, h0] at hlen
  omega

theorem resolvedId_name (c : Crypto) (master : Bytes) (nm : String) (h : nm ≠ "") :
    resolvedId c master (.opts { name := some (.str nm) }) =
      some (encodeBytes (generateKeyPair c master (some (.str nm))).discoveryKey) := by
  simp [resolvedId, generateKeys, normalizeOpts, nameTruthy, h]

theorem mkNamespace_root_name (c : Crypto) (a : String) (ha : a ≠ "") :
    mkNamespace c rootView (some (.str a)) =
      { name := a, isNamespaced := true, hasParent := true, openedChains := [] } := by
  simp [mkNamespace, namespaceName, rootView, ha]

theorem mkNamespace_nested_name (c : Crypto) (v : View) (b : String) (hb : b ≠ "")
    (hns : v.isNamespaced = true) :
    mkNamespace c v (some (.str b)) =
      { name := v.name ++ NAMESPACE_SEPERATOR ++ b, isNamespaced := true,
        hasParent := true, openedChains := [] } := by
  have hne := append_sep_ne_empty v.name b
  simp [mkNamespace, namespaceName, hb, hns, hne]

/-- C10 counterexample: with `a = ""` (an empty namespace string is falsy
and is replaced by 32 random bytes) and `b = "x"`, the nested view
`S.namespace(a).namespace(b)` and the flat view `S.namespace(a + ":" + b)`
carry different name strings. -/
theorem c10_empty_name_cex :
    (mkNamespace testCrypto (mkNamespace testCrypto rootView (some (.str "")))
        (some (.str "x"))).name
      ≠ (mkNamespace testCrypto rootView
          (some (.str ("" ++ NAMESPACE_SEPERATOR ++ "x")))).name := by
  decide

/-- C10 (amended): for *non-empty* strings `a` and `b`, the views
`S.namespace(a).namespace(b)` and `S.namespace(a + ":" + b)` over a root
store carry the same name string `a:b` (the `:` separator is not escaped,
so distinct nesting paths collide), and — on an opened engine with cache
headroom — their `default()` calls derive from that same name and return
the identical chain handle. -/
theorem c10_namespace_names_amended (st : InnerStore) (a b : String)
    (ha : a ≠ "") (hb : b ≠ "")
    (hop : st.opened = true)
    (hroom : st.cache.entries.length < st.cache.maxSize) :
    (mkNamespace st.crypto (mkNamespace st.crypto rootView (some (.str a)))
        (some (.str b))).name = a ++ NAMESPACE_SEPERATOR ++ b ∧
    (mkNamespace st.crypto rootView
        (some (.str (a ++ NAMESPACE_SEPERATOR ++ b)))).name
      = a ++ NAMESPACE_SEPERATOR ++ b ∧
    ∃ ch v1 st1 v2 st2,
      Chainstore.defaultGet
          (mkNamespace st.crypto (mkNamespace st.crypto rootView (some (.str a)))
            (some (.str b))) st {}
        = (.ok ch, v1, st1) ∧
      Chainstore.defaultGet
          (mkNamespace st.crypto rootView
            (some (.str (a ++ NAMESPACE_SEPERATOR ++ b)))) st1 {}
        = (.ok ch, v2, st2) := by
  have hV1 : mkNamespace st.crypto (mkNamespace st.crypto rootView (some (.str a)))
      (some (.str b)) =
      { name := a ++ NAMESPACE_SEPERATOR ++ b, isNamespaced := true,
        hasParent := true, openedChains := [] } := by
    rw [mkNamespace_root_name st.crypto a ha]
    exact mkNamespace_nested_name st.crypto _ b hb rfl
  have hV2 : mkNamespace st.crypto rootView (some (.str (a ++ NAMESPACE_SEPERATOR ++ b))) =
      { name := a ++ NAMESPACE_SEPERATOR ++ b, isNamespaced := true,
        hasParent := true, openedChains := [] } :=
    mkNamespace_root_name st.crypto _ (append_sep_ne_empty a b)
  refine ⟨by rw [hV1], by rw [hV2], ?_⟩
  have hres := resolvedId_name st.crypto st.masterKey (a ++ NAMESPACE_SEPERATOR ++ b)
    (append_sep_ne_empty a b)
  obtain ⟨ch, v1, st1, v2, st2, hg1, hg2⟩ :=
    outerGet_sameId
      ({ name := a ++ NAMESPACE_SEPERATOR ++ b, isNamespaced := true,
         hasParent := true, openedChains := [] } : View)
      ({ name := a ++ NAMESPACE_SEPERATOR ++ b, isNamespaced := true,
         hasParent := true, openedChains := [] } : View)
      hop hres hres hroom
  refine ⟨ch, v1, st1, v2, st2, ?_, ?_⟩
  · rw [hV1]
    exact hg1
  · rw [hV2]
    exact hg2

/-- Witness for C10 (amended) at `a = "aa"`, `b = "bb"` over a concrete
store. -/
theorem c10_namespace_names_witness :
    ("aa" : String) ≠ "" ∧ ("bb" : String) ≠ "" ∧
    ((mkNamespace storeA.crypto (mkNamespace storeA.crypto rootView (some (.str "aa")))
        (some (.str "bb"))).name = "aa" ++ NAMESPACE_SEPERATOR ++ "bb" ∧
     (mkNamespace storeA.crypto rootView
        (some (.str ("aa" ++ NAMESPACE_SEPERATOR ++ "bb")))).name
       = "aa" ++ NAMESPACE_SEPERATOR ++ "bb" ∧
     ∃ ch v1 st1 v2 st2,
       Chainstore.defaultGet
           (mkNamespace storeA.crypto (mkNamespace storeA.crypto rootView (some (.str "aa")))
             (some (.str "bb"))) storeA {}
         = (.ok ch, v1, st1) ∧
       Chainstore.defaultGet
           (mkNamespace storeA.crypto rootView
             (some (.str ("aa" ++ NAMESPACE_SEPERATOR ++ "bb")))) st1 {}
         = (.ok ch, v2, st2)) :=
  ⟨by decide, by decide,
   c10_namespace_names_amended storeA "aa" "bb" (by decide) (by decide) rfl (by decide)⟩
